import Mathlib

/-!
Shallow embedding of the QR-code generator (`src/qrcode.py`) and proofs about it.

Conventions of the embedding:
* Python `bytearray` / `list` of bytes  ↦  `List Nat`;
* Python booleans ↦ `Bool`; a grid of modules ↦ `List (List Bool)`;
* fallible Python code (code that can raise) ↦ `Except Unit _`
  (the error payload carries no information; the message strings are irrelevant);
* Python `//`, `%`, `^`, `&`, `<<`, `>>` on non-negative ints ↦ `Nat` `/ % ^^^ &&& <<< >>>`.
  All subtractions appearing below are non-negative in every reachable source state,
  so `Nat` truncated subtraction agrees with Python's exact subtraction there.
-/

/-- `get_bit(data, index)` from qrcode.py: bit `index` of `data`. -/
def get_bit (data index : Nat) : Nat :=
  (data >>> index) &&& 1

/-- The bit list pushed by `BitStream.append_bits`: `n` low bits of `val`,
most significant first (`get_bit(val, i)` for `i = n-1 .. 0`). -/
def bits_msb (val n : Nat) : List Nat :=
  (List.range n).map (fun i => get_bit val (n - 1 - i))

/-- `BitStream.append_bits(val, n)`: raises `ValueError` when `val` does not fit
in `n` bits (`(val >> n) != 0`; `n < 0` cannot arise for `n : Nat`). -/
def append_bits (bs : List Nat) (val n : Nat) : Except Unit (List Nat) :=
  if val >>> n ≠ 0 then Except.error ()
  else Except.ok (bs ++ bits_msb val n)

/-- `BitStream.convert_to_bytes`: raises `ValueError` unless the length is a
multiple of 8; otherwise packs each 8-bit chunk, first bit highest. -/
def convert_to_bytes (bs : List Nat) : Except Unit (List Nat) :=
  if bs.length % 8 ≠ 0 then Except.error ()
  else Except.ok ((List.range (bs.length / 8)).map
    (fun i => ((bs.drop (8 * i)).take 8).foldl (fun acc b => 2 * acc + b) 0))

/-- The key passed to `BitStream.__getitem__`: a Python `int` or a `slice`
(the two `isinstance` branches of the source guard). -/
inductive BSKey
  | intKey : Int → BSKey
  | sliceKey : Int → Int → BSKey
deriving DecidableEq

/-- Result of a `BitStream.__getitem__` access: a single bit or a sub-sequence. -/
inductive BSGetResult
  | bit : Nat → BSGetResult
  | seq : List Nat → BSGetResult
deriving DecidableEq

/-- `isinstance(key, slice)`. -/
def isinstance_slice : BSKey → Bool
  | .sliceKey _ _ => true
  | .intKey _ => false

/-- `isinstance(key, int)`. -/
def isinstance_int : BSKey → Bool
  | .intKey _ => true
  | .sliceKey _ _ => false

/-- Python indexing `data[i]` for an `int` index (negative indices count from the
end).  Only reachable from dead code below, see `bitstream_getitem`. -/
def pyIndex (data : List Nat) (i : Int) : Nat :=
  if 0 ≤ i then data.getD i.toNat 0
  else data.getD (data.length - (-i).toNat) 0

/-- Python slicing `data[a:b]` for non-negative bounds.  Only reachable from dead
code below, see `bitstream_getitem`. -/
def pySlice (data : List Nat) (a b : Int) : List Nat :=
  (data.drop a.toNat).take (b.toNat - a.toNat)

/-- `BitStream.__getitem__(key)` from qrcode.py, verbatim:

    if not isinstance(key, slice) or not isinstance(key, int):
        raise KeyError("Key must be a integer or slice")
    return self.data[key]

The guard asks for the key to be both a slice and an int at once, so the
`return` line is dead code. -/
def bitstream_getitem (data : List Nat) (key : BSKey) : Except Unit BSGetResult :=
  if !(isinstance_slice key) || !(isinstance_int key) then Except.error ()
  else
    match key with
    | .intKey i => Except.ok (.bit (pyIndex data i))
    | .sliceKey a b => Except.ok (.seq (pySlice data a b))

/-- `byte_mode = Mode(0x4, (8, 16, 16))`: the mode bits. -/
def byte_mode_modebits : Nat := 0x4

/-- `byte_mode = Mode(0x4, (8, 16, 16))`: the character-count widths. -/
def byte_mode_charcount : List Nat := [8, 16, 16]

/-- `Mode.get_num_char_count_bits(version)`: `charcount[(version + 7) // 17]`.
The source raises `ValueError` outside `1 <= version <= 40`; all uses below are
guarded by that range. -/
def get_num_char_count_bits (version : Nat) : Nat :=
  byte_mode_charcount.getD ((version + 7) / 17) 0

/-- The four error-correction levels. -/
inductive Ecl
  | L
  | M
  | Q
  | H
deriving DecidableEq

/-- `ecl_lookup[ecl][0]`: the table ordinal (L=0, M=1, Q=2, H=3); this is also
the strength order L < M < Q < H used by the ECL-upgrade claim. -/
def ecl_ordinal : Ecl → Nat
  | .L => 0
  | .M => 1
  | .Q => 2
  | .H => 3

/-- `RSEncoder.multiply(x, y)`: GF(2^8) product under 0x11D, by the source's
8-step shift-and-add loop (`for i in range(7, -1, -1)`; here `i = 7 - j` for
`j` in `List.range 8`). -/
def multiply (x y : Nat) : Nat :=
  (List.range 8).foldl
    (fun z j =>
      ((z <<< 1) ^^^ ((z >>> 7) * 0x11D)) ^^^ (((y >>> (7 - j)) &&& 1) * x))
    0

/-- One pass of the inner loop of `RSEncoder.create_rs_divisor`: in place,
`res[j] = multiply(res[j], root)`, then `res[j] ^= res[j+1]` (the not yet
updated next coefficient) for `j + 1 < degree`. -/
def divisor_pass (root : Nat) (res : List Nat) : List Nat :=
  List.zipWith (fun a b => multiply a root ^^^ b) res (res.tail ++ [0])

/-- `RSEncoder.create_rs_divisor(degree)`: start from `[0, ..., 0, 1]`, run
`degree` passes, multiplying the running root by `0x02` after each.  The source
raises `ValueError` outside `1 <= degree <= 255`; all uses below have
`degree >= 7`. -/
def create_rs_divisor (degree : Nat) : List Nat :=
  ((List.range degree).foldl
    (fun p _ => (divisor_pass p.2 p.1, multiply p.2 0x02))
    (List.replicate (degree - 1) 0 ++ [1], 1)).1

/-- One iteration of `RSEncoder.remainder`'s outer loop for input byte `b`:
`f = b ^ res.pop(0)`, `res.append(0)`, then `res[i] ^= multiply(div[i], f)`
for each `i`.  (`res` is never empty when this runs: its length is the divisor
degree, at least 1.) -/
def remainder_step (div res : List Nat) (b : Nat) : List Nat :=
  List.zipWith (fun r c => r ^^^ multiply c (b ^^^ res.headD 0)) (res.tail ++ [0]) div

/-- `RSEncoder.remainder(data)` with divisor `div`: polynomial long division
over GF(2^8) starting from an all-zero remainder of the divisor's length. -/
def remainder (div data : List Nat) : List Nat :=
  data.foldl (fun res b => remainder_step div res b) (List.replicate div.length 0)

/-- The lookup table of `get_ecp_per_pile` (error-correction bytes per block),
rows indexed by the ECL table ordinal, columns by `version - 1`. -/
def ecp_per_pile_table : List (List Nat) :=
  [[7, 10, 15, 20, 26, 18, 20, 24, 30, 18, 20, 24, 26, 30, 22, 24, 28, 30, 28, 28,
    28, 28, 30, 30, 26, 28, 30, 30, 30, 30, 30, 30, 30, 30, 30, 30, 30, 30, 30, 30],
   [10, 16, 26, 18, 24, 16, 18, 22, 22, 26, 30, 22, 22, 24, 24, 28, 28, 26, 26, 26,
    26, 28, 28, 28, 28, 28, 28, 28, 28, 28, 28, 28, 28, 28, 28, 28, 28, 28, 28, 28],
   [13, 22, 18, 26, 18, 24, 18, 22, 20, 24, 28, 26, 24, 20, 30, 24, 28, 28, 26, 30,
    28, 30, 30, 30, 30, 28, 30, 30, 30, 30, 30, 30, 30, 30, 30, 30, 30, 30, 30, 30],
   [17, 28, 22, 16, 22, 28, 26, 26, 24, 28, 24, 28, 22, 24, 24, 30, 28, 28, 26, 28,
    30, 24, 30, 30, 30, 30, 30, 30, 30, 30, 30, 30, 30, 30, 30, 30, 30, 30, 30, 30]]

/-- `get_ecp_per_pile(version, ecl)`. -/
def get_ecp_per_pile (version : Nat) (e : Ecl) : Nat :=
  (ecp_per_pile_table.getD (ecl_ordinal e) []).getD (version - 1) 0

/-- The lookup table of `get_num_ec_piles` (number of blocks), rows indexed by
the ECL table ordinal, columns by `version - 1`. -/
def num_ec_piles_table : List (List Nat) :=
  [[1, 1, 1, 1, 1, 2, 2, 2, 2, 4, 4, 4, 4, 4, 6, 6, 6, 6, 7, 8,
    8, 9, 9, 10, 12, 12, 12, 13, 14, 15, 16, 17, 18, 19, 19, 20, 21, 22, 24, 25],
   [1, 1, 1, 2, 2, 4, 4, 4, 5, 5, 5, 8, 9, 9, 10, 10, 11, 13, 14, 16,
    17, 17, 18, 20, 21, 23, 25, 26, 28, 29, 31, 33, 35, 37, 38, 40, 43, 45, 47, 49],
   [1, 1, 2, 2, 4, 4, 6, 6, 8, 8, 8, 10, 12, 16, 12, 17, 16, 18, 21, 20,
    23, 23, 25, 27, 29, 34, 34, 35, 38, 40, 43, 45, 48, 51, 53, 56, 59, 62, 65, 68],
   [1, 1, 2, 4, 4, 4, 5, 6, 8, 8, 11, 11, 16, 16, 18, 16, 19, 21, 25, 25,
    25, 34, 30, 32, 35, 37, 40, 42, 45, 48, 51, 54, 57, 60, 63, 66, 70, 74, 77, 81]]

/-- `get_num_ec_piles(version, ecl)`. -/
def get_num_ec_piles (version : Nat) (e : Ecl) : Nat :=
  (num_ec_piles_table.getD (ecl_ordinal e) []).getD (version - 1) 0

/-- `get_num_data_bytes(version)`: raw capacity in BITS (despite the name),
`((16 v + 128) v) + 64` minus alignment-pattern overhead for `version >= 2`
and version-information overhead for `version >= 7`.  The source raises
`ValueError` outside `1 <= version <= 40`; all uses below are so guarded. -/
def get_num_data_bytes (version : Nat) : Nat :=
  let res := (((16 * version) + 128) * version) + 64
  if 2 ≤ version then
    let num_align_patterns := (version / 7) + 2
    let res := res - ((((25 * num_align_patterns) - 10) * num_align_patterns) - 55)
    if 7 ≤ version then res - 36 else res
  else res

/-- `get_capacity(version, ecl)`: data capacity in bytes,
`raw_capacity_bits / 8 - ec_per_block * num_blocks`. -/
def get_capacity (version : Nat) (e : Ecl) : Nat :=
  (get_num_data_bytes version / 8) - get_ecp_per_pile version e * get_num_ec_piles version e

/-- The bit count `used_capacity` computed in `QR.optimize_version` and
`QR.optimize_ecl`: `4 + char_count_bits(version) + len(data) * 8`. -/
def used_capacity (data_len version : Nat) : Nat :=
  4 + get_num_char_count_bits version + data_len * 8

/-- The body of `QR.optimize_version`'s loop.  The Python loop runs `version`
from `minversion` to `maxversion`; inside it first breaks when the data fits
(`used_capacity and used_capacity <= max_capacity`), then raises
`CapacityError` when `version >= maxversion`.  `fuel` counts the remaining
iterations (`maxversion + 1 - version`); the `fuel = 0` case corresponds to a
loop over an empty range, unreachable for `minversion <= maxversion`. -/
def optimize_versionAux (data_len maxversion : Nat) (e : Ecl) : Nat → Nat → Except Unit Nat
  | _, 0 => Except.error ()
  | version, fuel + 1 =>
    if used_capacity data_len version ≠ 0 ∧
        used_capacity data_len version ≤ get_capacity version e * 8 then
      Except.ok version
    else if maxversion ≤ version then Except.error ()
    else optimize_versionAux data_len maxversion e (version + 1) fuel

/-- `QR.optimize_version(data, minversion, maxversion, ecl, ..)`; only
`len(data)` matters.  `Except.error ()` is the source's `CapacityError`. -/
def optimize_version (data_len minversion maxversion : Nat) (e : Ecl) : Except Unit Nat :=
  optimize_versionAux data_len maxversion e minversion (maxversion + 1 - minversion)

/-- `QR.optimize_ecl(data, version, ecl, ..)`: scan `['H', 'Q', 'M', 'L']`,
break at the first level whose capacity fits; the loop variable (shadowing the
`ecl` parameter, which is therefore ignored) is returned, so the result is the
first fitting level, or `L` when none fits. -/
def optimize_ecl (data_len version : Nat) : Ecl :=
  ([Ecl.H, Ecl.Q, Ecl.M, Ecl.L].find? (fun e =>
      decide (used_capacity data_len version ≠ 0) &&
      decide (used_capacity data_len version ≤ get_capacity version e * 8))).getD Ecl.L

/-- `alternated_padding = [0xEC, 0x11]` from `pad_and_terminate`. -/
def alternated_padding : List Nat := [0xEC, 0x11]

/-- The `while len(byte_data) < capacity` padding loop of `pad_and_terminate`:
append the alternating pad byte as 8 bits.  Each append adds 8 bits and the
pad values fit in 8 bits, so `append_bits` cannot fail here and `fuel =
capacity` iterations always suffice (the model is called with that fuel). -/
def pad_loop (capacity : Nat) : List Nat → Nat → Nat → List Nat
  | bs, _, 0 => bs
  | bs, i, fuel + 1 =>
    if bs.length < capacity then
      pad_loop capacity (bs ++ bits_msb (alternated_padding.getD (i % 2) 0) 8) (i + 1) fuel
    else bs

/-- `pad_and_terminate(data, version, ecl)` from qrcode.py.  `data` is the list
of the input string's code points (`ord(char)`).  Python's `-len % 8` is
`(8 - len % 8) % 8` for non-negative `len`.  (In `min(4, capacity - len)`,
Python's `capacity - len` is never negative on the reachable inputs, where the
buffer length is at most `capacity`, so `Nat` subtraction agrees.) -/
def pad_and_terminate (data : List Nat) (version : Nat) (e : Ecl) : Except Unit (List Nat) := do
  let bs ← append_bits [] byte_mode_modebits 4
  let bs ← append_bits bs data.length (get_num_char_count_bits version)
  let bs ← data.foldlM (fun bs c => append_bits bs c 8) bs
  let capacity := get_capacity version e * 8
  let bs ← append_bits bs 0 (min 4 (capacity - bs.length))
  let bs ← append_bits bs 0 ((8 - bs.length % 8) % 8)
  let bs := pad_loop capacity bs 0 capacity
  convert_to_bytes bs

/-- The block-building loop of `QR.prepare_payload`: for `i` in
`range(num_ec_piles)`, slice `data[k : k + short_pile_len - ec_bytes_len +
(0 if i < num_short_piles else 1)]`, advance `k` by the slice's length,
compute the Reed-Solomon bytes of the slice, append a dummy `0` byte to short
piles, and store slice (++ dummy) ++ ecc.  `fuel` counts remaining iterations
(initially `num_ec_piles`), `i` the block index, `k` the data offset. -/
def pilesAux (div data : List Nat) (short_pile_len ec_bytes_len num_short_piles : Nat) :
    Nat → Nat → Nat → List (List Nat)
  | 0, _, _ => []
  | fuel + 1, i, k =>
    let pile := (data.drop k).take
      (short_pile_len - ec_bytes_len + (if i < num_short_piles then 0 else 1))
    let ecp := remainder div pile
    let pile2 := if i < num_short_piles then pile ++ [0] else pile
    (pile2 ++ ecp) :: pilesAux div data short_pile_len ec_bytes_len num_short_piles
      fuel (i + 1) (k + pile.length)

/-- The list `piles` built inside `QR.prepare_payload(data)` (everything before
the final `interleave_data` call), with the source's derived parameters. -/
def prepare_piles (data : List Nat) (version : Nat) (e : Ecl) : List (List Nat) :=
  let num_ec_piles := get_num_ec_piles version e
  let ec_bytes_len := get_ecp_per_pile version e
  let num_raw_bytes := get_num_data_bytes version / 8
  let num_short_piles := num_ec_piles - num_raw_bytes % num_ec_piles
  let short_pile_len := num_raw_bytes / num_ec_piles
  pilesAux (create_rs_divisor ec_bytes_len) data short_pile_len ec_bytes_len num_short_piles
    num_ec_piles 0 0

/-- The inner loop of `interleave_data`: for `j, pile` in `enumerate(piles)`,
append `pile[i]` unless `i == short_pile_len - n_ec_bytes_per_pile` and
`j < n_short_piles` (the dummy byte of a short pile). -/
def interleave_inner (short_pile_len n_ec_bytes_per_pile n_short_piles i : Nat) :
    Nat → List (List Nat) → List Nat
  | _, [] => []
  | j, pile :: rest =>
    (if i ≠ short_pile_len - n_ec_bytes_per_pile ∨ n_short_piles ≤ j
     then [pile.getD i 0] else []) ++
      interleave_inner short_pile_len n_ec_bytes_per_pile n_short_piles i (j + 1) rest

/-- `interleave_data(piles, short_pile_len, n_ec_bytes_per_pile, n_short_piles, ..)`:
for `i` in `range(len(piles[0]))`, run the inner loop over the piles. -/
def interleave_data (piles : List (List Nat)) (short_pile_len n_ec_bytes_per_pile n_short_piles : Nat) : List Nat :=
  ((List.range (piles.headD []).length).map
    (fun i => interleave_inner short_pile_len n_ec_bytes_per_pile n_short_piles i 0 piles)).flatten

/-- `QR.prepare_payload(data)`: build the piles, then interleave them. -/
def prepare_payload (data : List Nat) (version : Nat) (e : Ecl) : List Nat :=
  let num_ec_piles := get_num_ec_piles version e
  let ec_bytes_len := get_ecp_per_pile version e
  let num_raw_bytes := get_num_data_bytes version / 8
  let num_short_piles := num_ec_piles - num_raw_bytes % num_ec_piles
  let short_pile_len := num_raw_bytes / num_ec_piles
  interleave_data (prepare_piles data version e) short_pile_len ec_bytes_len num_short_piles

/-- The two failure modes of QR construction. -/
inductive QRErr
  | CapacityError
  | ValueError
deriving DecidableEq

/-- The prefix of `QR.__init__` relevant to the payload pipeline: select the
version (possible `CapacityError`), optimize the ECL, encode / pad the payload
(possible `ValueError` from `BitStream` methods), split into blocks and
interleave.  NB the source passes the caller-supplied `ecl` (not the optimized
`self.ecl`) to `pad_and_terminate` (qrcode.py line 282) and the optimized one
to `prepare_payload`; the model mirrors that. -/
def qr_encode (data : List Nat) (minversion maxversion : Nat) (e : Ecl) : Except QRErr (List Nat) :=
  match optimize_version data.length minversion maxversion e with
  | .error _ => .error .CapacityError
  | .ok version =>
    match pad_and_terminate data version e with
    | .error _ => .error .ValueError
    | .ok payload => .ok (prepare_payload payload version (optimize_ecl data.length version))

/-- The dictionary `mask_collection` of `QR.apply_mask`: the eight mask
predicates on `(x, y)`.  Looking up an index above 7 raises `KeyError` in
Python; every use below carries `mask_index <= 7`, the final catch-all arm
(returning predicate 7) is never exercised there. -/
def mask_pred (mask_index x y : Nat) : Bool :=
  match mask_index with
  | 0 => (x + y) % 2 == 0
  | 1 => y % 2 == 0
  | 2 => x % 3 == 0
  | 3 => (x + y) % 3 == 0
  | 4 => (x / 3 + y / 2) % 2 == 0
  | 5 => x * y % 2 + x * y % 3 == 0
  | 6 => (x * y % 2 + x * y % 3) % 2 == 0
  | _ => ((x + y) % 2 + x * y % 3) % 2 == 0

/-- The inner loop of `QR.apply_mask` over one row `y`:
`blocks[y][x] ^= mask(x, y) and (not isfunction[y][x])` for each cell, `x`
being the position of the cell in the row (the Python loop runs `x` over
`range(size)` and the grids are `size` wide). -/
def apply_mask_row (mask_index y : Nat) (isfRow : List Bool) : Nat → List Bool → List Bool
  | _, [] => []
  | x, b :: rest =>
    xor b (mask_pred mask_index x y && !(isfRow.getD x false)) ::
      apply_mask_row mask_index y isfRow (x + 1) rest

/-- The outer loop of `QR.apply_mask` over the rows `y` of the grid. -/
def apply_mask (isfunction : List (List Bool)) (mask_index : Nat) : Nat → List (List Bool) → List (List Bool)
  | _, [] => []
  | y, row :: rest =>
    apply_mask_row mask_index y (isfunction.getD y []) 0 row ::
      apply_mask isfunction mask_index (y + 1) rest

/-- `lookup_penalties = [3, 3, 40, 10]` from `QR.get_penalty`, the list passed
to every penalty helper. -/
def lookup_penalties : List Nat := [3, 3, 40, 10]

/-- `QR.get_square_penalty(penalties)`: for every `y, x` in
`range(size - 1)`, when the four cells `blocks[y][x]`, `blocks[y][x+1]`,
`blocks[y+1][x]`, `blocks[y+1][x+1]` are chained-equal, add `penalties[2]`. -/
def get_square_penalty (size : Nat) (blocks : List (List Bool)) (penalties : List Nat) : Nat :=
  (List.range (size - 1)).foldl
    (fun acc y =>
      (List.range (size - 1)).foldl
        (fun acc2 x =>
          if (blocks.getD y []).getD x false = (blocks.getD y []).getD (x + 1) false ∧
              (blocks.getD y []).getD (x + 1) false = (blocks.getD (y + 1) []).getD x false ∧
              (blocks.getD (y + 1) []).getD x false = (blocks.getD (y + 1) []).getD (x + 1) false
          then acc2 + penalties.getD 2 0 else acc2)
        acc)
    0

/-- The inner helper `check_finder_like(array)` of `QR.get_bar_penalty`,
applied to a seven-record window `hist[i : i+7]` of `(color, streak)` records;
`n = array[3][1] // 3`, then the proportions are checked.  (The source's
length-7 guard cannot fire: the only call sites pass slices of length 7.) -/
def check_finder_like (window : List (Bool × Nat)) : Bool :=
  let n := (window.getD 3 (false, 0)).2 / 3
  (decide (n ≤ (window.getD 0 (false, 0)).2) && decide (n ≤ (window.getD 6 (false, 0)).2)) &&
  ((window.getD 2 (false, 0)).2 == (window.getD 4 (false, 0)).2 &&
    (window.getD 4 (false, 0)).2 == n) &&
  ((window.getD 1 (false, 0)).2 == (window.getD 5 (false, 0)).2 &&
    (window.getD 5 (false, 0)).2 == n)

/-- The history-building loop of `QR.get_bar_penalty` (`for i in range(1,
len(array))`): extend the current streak while the color repeats, otherwise
record `(active_color, streak)` and restart.  Records keep the Python values:
the bool `active_color` and the int streak (Python compares them with `== 0`
and `== 1` later, and `False == 0`, `True == 1` there). -/
def bar_scan (hist : List (Bool × Nat)) (active_color : Bool) (streak : Nat) :
    List Bool → List (Bool × Nat) × Bool × Nat
  | [] => (hist, active_color, streak)
  | b :: rest =>
    if b = active_color then bar_scan hist active_color (streak + 1) rest
    else bar_scan (hist ++ [(active_color, streak)]) b 1 rest

/-- `QR.get_bar_penalty(array, penalties)` for a `size`-module row or column
given as a list of booleans (this is the shape of the source's column calls
`[self.blocks[y][x] for y in range(self.size)]`).  The dummy first record
`(0, self.size)` of the source is `(false, size)` here (its color is only ever
compared with `== 0`).  Note the source never records the streak that is still
open when the loop ends, and inflates the first streak by `size` when the bar
starts light. -/
def get_bar_penalty (size : Nat) (array : List Bool) (penalties : List Nat) : Nat :=
  let active_color := array.headD false
  let init : List (Bool × Nat) × Nat :=
    if active_color then ([(false, size)], 1) else ([], 1 + size)
  let scanned := bar_scan init.1 active_color init.2 array.tail
  let hist := scanned.1
  let run_pen := hist.foldl
    (fun acc record =>
      if 5 ≤ record.2 then acc + (penalties.getD 0 0 + (record.2 - 5)) else acc) 0
  let finder_pen := (List.range (hist.length - 6)).foldl
    (fun acc i =>
      if (hist.getD i (false, 0)).1 = (hist.getD (i + 2) (false, 0)).1 ∧
          (hist.getD (i + 2) (false, 0)).1 = (hist.getD (i + 4) (false, 0)).1 ∧
          (hist.getD (i + 4) (false, 0)).1 = (hist.getD (i + 6) (false, 0)).1 ∧
          (hist.getD (i + 6) (false, 0)).1 = false ∧
          (hist.getD (i + 1) (false, 0)).1 = (hist.getD (i + 3) (false, 0)).1 ∧
          (hist.getD (i + 3) (false, 0)).1 = (hist.getD (i + 5) (false, 0)).1 ∧
          (hist.getD (i + 5) (false, 0)).1 = true
      then acc + (if check_finder_like ((hist.drop i).take 7) then 1 else 0) * penalties.getD 2 0
      else acc) 0
  run_pen + finder_pen

/-- Modelled from the spec (section 4.6, block layout): data-byte count of
block `i`, `S` for the short blocks `i < Z` and `S + 1` for the long ones. -/
def block_len (S Z i : Nat) : Nat :=
  if i < Z then S else S + 1

/-- Modelled from the spec (section 4.6, block layout): offset of block `i`'s
data inside the codeword stream, the sum of the lengths of the earlier blocks. -/
def block_off (S Z i : Nat) : Nat :=
  ((List.range i).map (block_len S Z)).sum

/-- Modelled from the spec (section 4.6, block layout): the data bytes carried
by block `i`. -/
def block_data (data : List Nat) (S Z i : Nat) : List Nat :=
  (data.drop (block_off S Z i)).take (block_len S Z i)

/-- The expected shape of the `i`-th stored pile: its data bytes, the dummy `0`
byte for short piles, then the Reed-Solomon remainder of the data bytes. -/
def pileSpec (div data : List Nat) (S Z i : Nat) : List Nat :=
  block_data data S Z i ++ (if i < Z then [0] else []) ++ remainder div (block_data data S Z i)

/-- Modelled from the spec (section 4.6): `short_block_data_len =
total_data_bytes / total_ec_blocks`. -/
def short_block_data_len (version : Nat) (e : Ecl) : Nat :=
  get_capacity version e / get_num_ec_piles version e

/-- Modelled from the spec (section 4.6): `num_short_blocks =
total_ec_blocks - (total_data_bytes mod total_ec_blocks)`. -/
def num_short_blocks (version : Nat) (e : Ecl) : Nat :=
  get_num_ec_piles version e - get_capacity version e % get_num_ec_piles version e

/-- The code points of the ASCII payload of the spec's first concrete
scenario, the 11-byte string HELLO WORLD. -/
def hello_world : List Nat := [72, 69, 76, 76, 79, 32, 87, 79, 82, 76, 68]

/-- Whether an encode attempt succeeded. -/
def encode_ok (r : Except QRErr (List Nat)) : Bool :=
  match r with
  | .ok _ => true
  | .error _ => false

theorem bool_xor_xor_cancel (b c : Bool) : xor (xor b c) c = b := by
  cases b <;> cases c <;> rfl

theorem apply_mask_row_twice (k y : Nat) (isfRow : List Bool) :
    ∀ (l : List Bool) (x : Nat),
      apply_mask_row k y isfRow x (apply_mask_row k y isfRow x l) = l := by
  intro l
  induction l with
  | nil => intro x; rfl
  | cons b rest ih =>
    intro x
    simp only [apply_mask_row, bool_xor_xor_cancel]
    exact congrArg _ (ih (x + 1))

theorem apply_mask_twice (isf : List (List Bool)) (k : Nat) :
    ∀ (rows : List (List Bool)) (y : Nat),
      apply_mask isf k y (apply_mask isf k y rows) = rows := by
  intro rows
  induction rows with
  | nil => intro y; rfl
  | cons row rest ih =>
    intro y
    simp only [apply_mask]
    exact congrArg₂ _ (apply_mask_row_twice k y _ row 0) (ih (y + 1))

theorem apply_mask_row_getD_function (k y : Nat) (isfRow : List Bool) :
    ∀ (l : List Bool) (x0 j : Nat), isfRow.getD (x0 + j) false = true →
      (apply_mask_row k y isfRow x0 l).getD j false = l.getD j false := by
  intro l
  induction l with
  | nil => intro x0 j _; rfl
  | cons b rest ih =>
    intro x0 j hf
    cases j with
    | zero =>
      simp only [Nat.add_zero] at hf
      show xor b (mask_pred k x0 y && !(isfRow.getD x0 false)) = b
      rw [hf]
      simp
    | succ j =>
      have hf' : isfRow.getD (x0 + 1 + j) false = true := by
        rw [Nat.add_right_comm]; exact hf
      simpa [apply_mask_row] using ih (x0 + 1) j hf'

theorem apply_mask_getD_function (isf : List (List Bool)) (k : Nat) :
    ∀ (rows : List (List Bool)) (y0 j x : Nat),
      (isf.getD (y0 + j) []).getD x false = true →
      ((apply_mask isf k y0 rows).getD j []).getD x false = (rows.getD j []).getD x false := by
  intro rows
  induction rows with
  | nil => intro y0 j x _; rfl
  | cons row rest ih =>
    intro y0 j x hf
    cases j with
    | zero =>
      simp only [Nat.add_zero] at hf
      simpa [apply_mask] using apply_mask_row_getD_function k y0 _ row 0 x (by simpa using hf)
    | succ j =>
      have hf' : (isf.getD (y0 + 1 + j) []).getD x false = true := by
        rw [Nat.add_right_comm]; exact hf
      simpa [apply_mask] using ih (y0 + 1) j x hf'

/-- Claim C8: for every mask index `k` in `0..7` and every module grid with its
`is_function` grid, applying `apply_mask k` twice returns the grid to its
original state, and a single application changes no cell whose `is_function`
flag is set. -/
theorem apply_mask_involution (k : Nat) (hk : k ≤ 7)
    (isf blocks : List (List Bool)) :
    apply_mask isf k 0 (apply_mask isf k 0 blocks) = blocks ∧
    ∀ y x, (isf.getD y []).getD x false = true →
      ((apply_mask isf k 0 blocks).getD y []).getD x false = (blocks.getD y []).getD x false := by
  refine ⟨apply_mask_twice isf k blocks 0, fun y x hf => ?_⟩
  exact apply_mask_getD_function isf k blocks 0 y x (by simpa using hf)

theorem apply_mask_involution_witness :
    (0 : Nat) ≤ 7 ∧
    (apply_mask [[true, false], [false, false]] 0 0
        (apply_mask [[true, false], [false, false]] 0 0 [[true, false], [true, true]])
      = [[true, false], [true, true]] ∧
    ∀ y x, ([[true, false], [false, false]].getD y []).getD x false = true →
      ((apply_mask [[true, false], [false, false]] 0 0 [[true, false], [true, true]]).getD y []).getD x false
        = ([[true, false], [true, true]].getD y []).getD x false) :=
  ⟨by decide, apply_mask_involution 0 (by decide) [[true, false], [false, false]] [[true, false], [true, true]]⟩

/-- Claim C2 (code bug): the source's `get_penalty` hands `lookup_penalties =
[3, 3, 40, 10]` to `get_square_penalty`, which charges `penalties[2] = 40` for
each uniform 2x2 block — not 3 as the claim (and the QR standard's rule 2)
demand.  On the all-dark 2x2 grid the single 2x2 block scores 40. -/
theorem square_penalty_charges_40 :
    get_square_penalty 2 [[true, true], [true, true]] lookup_penalties = 40 ∧
    lookup_penalties.getD 2 0 ≠ 3 := by
  constructor
  · rfl
  · decide

/-- Claim C3 (code bug): `get_bar_penalty` never records the run that is still
open when its scan ends, so a column of 21 identical light modules — a single
maximal run with `L = 21`, which the claim scores as `3 + (21 - 5) = 19` —
contributes 0 to the penalty. -/
theorem bar_penalty_drops_last_run :
    get_bar_penalty 21 (List.replicate 21 false) lookup_penalties = 0 ∧
    3 + (21 - 5) ≠ 0 := by
  constructor
  · rfl
  · decide

/-- Claim C9 (code bug): `BitStream.__getitem__`'s guard
`not isinstance(key, slice) or not isinstance(key, int)` is satisfied by every
key (no key is both a slice and an int), so every access — int or slice, in
range or not — raises `KeyError`, contradicting the claim that neither form
of access raises. -/
theorem bitstream_getitem_always_raises (data : List Nat) (key : BSKey) :
    bitstream_getitem data key = Except.error () := by
  cases key <;> rfl

set_option maxRecDepth 100000 in
/-- Claim C7: encoding HELLO WORLD (11 ASCII bytes) with versions 1..40 and
minimum ECL M selects version 1, upgrades the ECL to Q, and the encode
pipeline succeeds. -/
theorem hello_world_v1_Q :
    optimize_version hello_world.length 1 40 Ecl.M = Except.ok 1 ∧
    optimize_ecl hello_world.length 1 = Ecl.Q ∧
    encode_ok (qr_encode hello_world 1 40 Ecl.M) = true := by
  exact ⟨rfl, rfl, rfl⟩

theorem used_capacity_ne_zero (data_len version : Nat) : used_capacity data_len version ≠ 0 := by
  unfold used_capacity
  omega

theorem optimize_versionAux_spec (data_len maxversion : Nat) (e : Ecl) :
    ∀ fuel version, version + fuel = maxversion + 1 →
      (∀ w, optimize_versionAux data_len maxversion e version fuel = Except.ok w →
        version ≤ w ∧ w ≤ maxversion ∧
          used_capacity data_len w ≤ get_capacity w e * 8 ∧
          ∀ u, version ≤ u → u < w → ¬ used_capacity data_len u ≤ get_capacity u e * 8) ∧
      ((∃ w, version ≤ w ∧ w ≤ maxversion ∧ used_capacity data_len w ≤ get_capacity w e * 8) →
        ∃ w, optimize_versionAux data_len maxversion e version fuel = Except.ok w) ∧
      ((∀ w, version ≤ w → w ≤ maxversion → ¬ used_capacity data_len w ≤ get_capacity w e * 8) →
        optimize_versionAux data_len maxversion e version fuel = Except.error ()) := by
  intro fuel
  induction fuel with
  | zero =>
    intro version h
    refine ⟨?_, ?_, ?_⟩
    · intro w hw
      simp [optimize_versionAux] at hw
    · rintro ⟨w, hvw, hwm, -⟩
      omega
    · intro _
      rfl
  | succ fuel ih =>
    intro version h
    by_cases hc : used_capacity data_len version ≤ get_capacity version e * 8
    · have hres : optimize_versionAux data_len maxversion e version (fuel + 1) =
          Except.ok version := by
        simp [optimize_versionAux, hc, used_capacity_ne_zero data_len version]
      refine ⟨?_, ?_, ?_⟩
      · intro w hw
        rw [hres] at hw
        obtain rfl : version = w := by exact Except.ok.inj hw
        exact ⟨Nat.le_refl _, by omega, hc, fun u h1 h2 => by omega⟩
      · intro _
        exact ⟨version, hres⟩
      · intro hall
        exact absurd hc (hall version (Nat.le_refl _) (by omega))
    · have hres : optimize_versionAux data_len maxversion e version (fuel + 1) =
          if maxversion ≤ version then Except.error ()
          else optimize_versionAux data_len maxversion e (version + 1) fuel := by
        simp [optimize_versionAux, hc]
      by_cases hm : maxversion ≤ version
      · have hver : version = maxversion := by omega
        rw [if_pos hm] at hres
        refine ⟨?_, ?_, ?_⟩
        · intro w hw
          rw [hres] at hw
          exact absurd hw (by simp)
        · rintro ⟨w, hvw, hwm, hfit⟩
          obtain rfl : w = version := by omega
          exact absurd hfit hc
        · intro _
          exact hres
      · rw [if_neg hm] at hres
        obtain ⟨iha, ihb, ihc⟩ := ih (version + 1) (by omega)
        refine ⟨?_, ?_, ?_⟩
        · intro w hw
          rw [hres] at hw
          obtain ⟨hw1, hw2, hw3, hw4⟩ := iha w hw
          refine ⟨by omega, hw2, hw3, fun u h1 h2 => ?_⟩
          rcases Nat.eq_or_lt_of_le h1 with h | h
          · rw [← h]; exact hc
          · exact hw4 u h h2
        · rintro ⟨w, hvw, hwm, hfit⟩
          rw [hres]
          have hvw' : version + 1 ≤ w := by
            rcases Nat.eq_or_lt_of_le hvw with h | h
            · exact absurd (h ▸ hfit) hc
            · exact h
          exact ihb ⟨w, hvw', hwm, hfit⟩
        · intro hall
          rw [hres]
          exact ihc (fun w h1 h2 => hall w (by omega) h2)

/-- Claim C6: for admissible ranges, `optimize_version` returns the smallest
version in `[minversion, maxversion]` whose capacity (at the caller's minimum
ECL) holds the encoded bits, and raises `CapacityError` when no version in the
range does. -/
theorem optimize_version_first_fit (data_len minversion maxversion : Nat) (e : Ecl)
    (h1 : 1 ≤ minversion) (h2 : minversion ≤ maxversion) (h3 : maxversion ≤ 40) :
    ((∃ v, minversion ≤ v ∧ v ≤ maxversion ∧
        used_capacity data_len v ≤ get_capacity v e * 8) →
      ∃ v, optimize_version data_len minversion maxversion e = Except.ok v ∧
        minversion ≤ v ∧ v ≤ maxversion ∧
        used_capacity data_len v ≤ get_capacity v e * 8 ∧
        ∀ u, minversion ≤ u → u < v → ¬ used_capacity data_len u ≤ get_capacity u e * 8) ∧
    ((∀ v, minversion ≤ v → v ≤ maxversion → ¬ used_capacity data_len v ≤ get_capacity v e * 8) →
      optimize_version data_len minversion maxversion e = Except.error ()) := by
  have hfuel : minversion + (maxversion + 1 - minversion) = maxversion + 1 := by omega
  obtain ⟨ha, hb, hc⟩ := optimize_versionAux_spec data_len maxversion e
    (maxversion + 1 - minversion) minversion hfuel
  refine ⟨?_, hc⟩
  intro hex
  obtain ⟨v, hv⟩ := hb hex
  obtain ⟨h1', h2', h3', h4'⟩ := ha v hv
  exact ⟨v, hv, h1', h2', h3', h4'⟩

theorem optimize_version_first_fit_witness :
    (1 : Nat) ≤ 1 ∧ (1 : Nat) ≤ 40 ∧ (40 : Nat) ≤ 40 ∧
    (((∃ v, 1 ≤ v ∧ v ≤ 40 ∧ used_capacity 11 v ≤ get_capacity v Ecl.M * 8) →
      ∃ v, optimize_version 11 1 40 Ecl.M = Except.ok v ∧
        1 ≤ v ∧ v ≤ 40 ∧
        used_capacity 11 v ≤ get_capacity v Ecl.M * 8 ∧
        ∀ u, 1 ≤ u → u < v → ¬ used_capacity 11 u ≤ get_capacity u Ecl.M * 8) ∧
    ((∀ v, 1 ≤ v → v ≤ 40 → ¬ used_capacity 11 v ≤ get_capacity v Ecl.M * 8) →
      optimize_version 11 1 40 Ecl.M = Except.error ())) :=
  ⟨by decide, by decide, by decide,
    optimize_version_first_fit 11 1 40 Ecl.M (by decide) (by decide) (by decide)⟩

/-- Claim C5: whenever QR construction succeeds — so `optimize_version`
returned a version `v` at which the caller's minimum ECL fits — the level
returned by the descending scan of `optimize_ecl` is at least as strong as the
caller's, in the strength order L < M < Q < H. -/
theorem optimize_ecl_never_weaker (data_len minversion maxversion v : Nat) (e : Ecl)
    (h2 : minversion ≤ maxversion)
    (hok : optimize_version data_len minversion maxversion e = Except.ok v) :
    ecl_ordinal e ≤ ecl_ordinal (optimize_ecl data_len v) := by
  have hfuel : minversion + (maxversion + 1 - minversion) = maxversion + 1 := by omega
  obtain ⟨ha, -, -⟩ := optimize_versionAux_spec data_len maxversion e
    (maxversion + 1 - minversion) minversion hfuel
  obtain ⟨-, -, hfit, -⟩ := ha v hok
  have hne : decide (used_capacity data_len v ≠ 0) = true := by
    simp [used_capacity_ne_zero data_len v]
  cases e with
  | L => exact Nat.zero_le _
  | H =>
    have hH : decide (used_capacity data_len v ≤ get_capacity v Ecl.H * 8) = true :=
      decide_eq_true hfit
    simp [optimize_ecl, List.find?, hne, hH]
  | Q =>
    have hQ : decide (used_capacity data_len v ≤ get_capacity v Ecl.Q * 8) = true :=
      decide_eq_true hfit
    cases hH : decide (used_capacity data_len v ≤ get_capacity v Ecl.H * 8) <;>
      simp [optimize_ecl, List.find?, hne, hH, hQ, ecl_ordinal]
  | M =>
    have hM : decide (used_capacity data_len v ≤ get_capacity v Ecl.M * 8) = true :=
      decide_eq_true hfit
    cases hH : decide (used_capacity data_len v ≤ get_capacity v Ecl.H * 8) <;>
      cases hQ : decide (used_capacity data_len v ≤ get_capacity v Ecl.Q * 8) <;>
        simp [optimize_ecl, List.find?, hne, hH, hQ, hM, ecl_ordinal]

theorem optimize_ecl_never_weaker_witness :
    (1 : Nat) ≤ 40 ∧ optimize_version 11 1 40 Ecl.M = Except.ok 1 ∧
    ecl_ordinal Ecl.M ≤ ecl_ordinal (optimize_ecl 11 1) :=
  ⟨by decide, rfl, optimize_ecl_never_weaker 11 1 40 1 Ecl.M (by decide) rfl⟩

theorem except_bind_error {α β : Type} (g : α → Except Unit β) :
    (Except.error () : Except Unit α) >>= g = Except.error () := rfl

theorem except_bind_ok {α β : Type} (a : α) (g : α → Except Unit β) :
    (Except.ok a : Except Unit α) >>= g = g a := rfl

theorem append_bits_error_of_ge (bs : List Nat) (c : Nat) (hc : 256 ≤ c) :
    append_bits bs c 8 = Except.error () := by
  have h8 : c >>> 8 = c / 256 := by
    rw [Nat.shiftRight_eq_div_pow]
  have hne : c >>> 8 ≠ 0 := by
    rw [h8]
    omega
  simp [append_bits, hne]

theorem append_bits_ok_of_lt (bs : List Nat) (c : Nat) (hc : c < 256) :
    append_bits bs c 8 = Except.ok (bs ++ bits_msb c 8) := by
  have h8 : c >>> 8 = c / 256 := by
    rw [Nat.shiftRight_eq_div_pow]
  have hz : c >>> 8 = 0 := by
    rw [h8]
    omega
  simp [append_bits, hz]

theorem foldlM_append8_error (data : List Nat) :
    ∀ bs, (∃ c ∈ data, 256 ≤ c) →
      data.foldlM (fun bs c => append_bits bs c 8) bs = Except.error () := by
  induction data with
  | nil =>
    rintro bs ⟨c, hc, -⟩
    simp at hc
  | cons d ds ih =>
    rintro bs ⟨c, hc, h256⟩
    rw [List.foldlM_cons]
    by_cases hd : 256 ≤ d
    · rw [append_bits_error_of_ge bs d hd, except_bind_error]
    · rw [append_bits_ok_of_lt bs d (by omega), except_bind_ok]
      have hcds : c ∈ ds := by
        rcases List.mem_cons.mp hc with h | h
        · omega
        · exact h
      exact ih _ ⟨c, hcds, h256⟩

theorem pad_and_terminate_error_of_high (data : List Nat) (version : Nat) (e : Ecl)
    (hc : ∃ c ∈ data, 256 ≤ c) :
    pad_and_terminate data version e = Except.error () := by
  unfold pad_and_terminate
  rw [show append_bits [] byte_mode_modebits 4 = Except.ok ([] ++ bits_msb byte_mode_modebits 4)
      from rfl,
    except_bind_ok]
  cases h2 : append_bits ([] ++ bits_msb byte_mode_modebits 4) data.length
      (get_num_char_count_bits version) with
  | error u =>
    cases u
    rw [except_bind_error]
  | ok bs =>
    rw [except_bind_ok, foldlM_append8_error data bs hc, except_bind_error]

/-- Claim C10 (amended): on any input that reaches payload encoding — i.e. on
which version selection succeeds — a string containing a character with code
point at least 256 makes QR construction fail with the `ValueError` raised by
`BitStream.append_bits`; and no such string is ever encoded successfully
(inputs too long for the version range fail earlier, with `CapacityError`). -/
theorem qr_encode_high_codepoint (data : List Nat) (minversion maxversion : Nat) (e : Ecl)
    (hc : ∃ c ∈ data, 256 ≤ c) :
    ((∃ v, optimize_version data.length minversion maxversion e = Except.ok v) →
      qr_encode data minversion maxversion e = Except.error QRErr.ValueError) ∧
    ∀ out, qr_encode data minversion maxversion e ≠ Except.ok out := by
  constructor
  · rintro ⟨v, hv⟩
    simp [qr_encode, hv, pad_and_terminate_error_of_high data v e hc]
  · intro out hok
    cases hv : optimize_version data.length minversion maxversion e with
    | error u =>
      simp [qr_encode, hv] at hok
    | ok v =>
      simp [qr_encode, hv, pad_and_terminate_error_of_high data v e hc] at hok

theorem qr_encode_high_codepoint_witness :
    (∃ c ∈ ([300] : List Nat), 256 ≤ c) ∧
    (((∃ v, optimize_version ([300] : List Nat).length 1 40 Ecl.M = Except.ok v) →
      qr_encode [300] 1 40 Ecl.M = Except.error QRErr.ValueError) ∧
    ∀ out, qr_encode [300] 1 40 Ecl.M ≠ Except.ok out) :=
  ⟨⟨300, List.mem_singleton_self 300, by omega⟩,
    qr_encode_high_codepoint [300] 1 40 Ecl.M ⟨300, List.mem_singleton_self 300, by omega⟩⟩

set_option maxRecDepth 4000 in
/-- Claim C10 counterexample: the 2400-character string of repeated code point
300 contains characters above 255, yet QR construction with the default range
1..40 and minimum ECL M fails with `CapacityError` (raised by
`optimize_version` before payload encoding starts), not with the claimed
`ValueError` from `BitStream.append_bits`. -/
theorem qr_encode_overlong_capacity_error :
    (∃ c ∈ (List.replicate 2400 300 : List Nat), 256 ≤ c) ∧
    qr_encode (List.replicate 2400 300) 1 40 Ecl.M = Except.error QRErr.CapacityError := by
  constructor
  · exact ⟨300, by rw [List.mem_replicate]; omega, by omega⟩
  · have hlen : (List.replicate 2400 300 : List Nat).length = 2400 := List.length_replicate 2400 300
    unfold qr_encode
    rw [hlen]
    rw [show optimize_version 2400 1 40 Ecl.M = Except.error () from rfl]

theorem divisor_pass_length (root : Nat) (res : List Nat) :
    (divisor_pass root res).length = res.length := by
  unfold divisor_pass
  rw [List.length_zipWith, List.length_append, List.length_tail]
  simp only [List.length_cons, List.length_nil]
  omega

theorem create_rs_divisor_length (degree : Nat) (h : 1 ≤ degree) :
    (create_rs_divisor degree).length = degree := by
  unfold create_rs_divisor
  suffices hgen : ∀ (l : List Nat) (p : List Nat × Nat),
      ((l.foldl (fun p _ => (divisor_pass p.2 p.1, multiply p.2 0x02)) p).1).length
        = p.1.length by
    rw [hgen]
    rw [List.length_append, List.length_replicate]
    simp only [List.length_cons, List.length_nil]
    omega
  intro l
  induction l with
  | nil => intro p; rfl
  | cons a l ih =>
    intro p
    rw [List.foldl_cons]
    exact (ih _).trans (divisor_pass_length p.2 p.1)

theorem remainder_step_length (div res : List Nat) (b : Nat) (h : res.length = div.length) :
    (remainder_step div res b).length = div.length := by
  unfold remainder_step
  rw [List.length_zipWith, List.length_append, List.length_tail]
  simp only [List.length_cons, List.length_nil]
  omega

theorem remainder_length (div data : List Nat) : (remainder div data).length = div.length := by
  unfold remainder
  suffices hgen : ∀ (res : List Nat), res.length = div.length →
      (data.foldl (fun res b => remainder_step div res b) res).length = div.length by
    exact hgen _ (List.length_replicate _ _)
  induction data with
  | nil => intro res h; simpa using h
  | cons b bs ih =>
    intro res h
    rw [List.foldl_cons]
    exact ih _ (remainder_step_length div res b h)

theorem block_off_eq (S Z : Nat) : ∀ i, block_off S Z i = i * S + (i - Z) := by
  intro i
  induction i with
  | zero => simp [block_off]
  | succ i ih =>
    unfold block_off at ih ⊢
    rw [List.range_succ, List.map_append, List.sum_append, ih]
    simp only [List.map_cons, List.map_nil, List.sum_cons, List.sum_nil]
    have hmul : (i + 1) * S = i * S + S := Nat.succ_mul i S
    unfold block_len
    split <;> omega

theorem block_off_mono (S Z i j : Nat) (hij : i ≤ j) :
    block_off S Z i ≤ block_off S Z j := by
  rw [block_off_eq, block_off_eq]
  have h1 : i * S ≤ j * S := Nat.mul_le_mul_right S hij
  have h2 : i - Z ≤ j - Z := by omega
  omega

theorem block_off_succ (S Z i : Nat) :
    block_off S Z (i + 1) = block_off S Z i + block_len S Z i := by
  rw [block_off_eq, block_off_eq]
  have hmul : (i + 1) * S = i * S + S := Nat.succ_mul i S
  unfold block_len
  split <;> omega

theorem pilesAux_succ (div data : List Nat) (spl ec nshort fuel i k : Nat) :
    pilesAux div data spl ec nshort (fuel + 1) i k =
      ((if i < nshort
        then (data.drop k).take (spl - ec + (if i < nshort then 0 else 1)) ++ [0]
        else (data.drop k).take (spl - ec + (if i < nshort then 0 else 1))) ++
        remainder div ((data.drop k).take (spl - ec + (if i < nshort then 0 else 1)))) ::
      pilesAux div data spl ec nshort fuel (i + 1)
        (k + ((data.drop k).take (spl - ec + (if i < nshort then 0 else 1))).length) := rfl

theorem range_map_shift {α : Type} (g : Nat → α) (n i : Nat) :
    (List.range (n + 1)).map (fun m => g (i + m)) =
      g i :: (List.range n).map (fun m => g (i + 1 + m)) := by
  rw [List.range_succ_eq_map, List.map_cons, List.map_map]
  refine congrArg₂ _ (congrArg g (by omega)) ?_
  apply List.map_congr_left
  intro a _
  exact congrArg g (by omega)

theorem pilesAux_struct (div data : List Nat) (spl ec nshort : Nat) (hec : ec ≤ spl) :
    ∀ fuel i, block_off (spl - ec) nshort (i + fuel) ≤ data.length →
      pilesAux div data spl ec nshort fuel i (block_off (spl - ec) nshort i) =
        (List.range fuel).map (fun m => pileSpec div data (spl - ec) nshort (i + m)) := by
  intro fuel
  induction fuel with
  | zero => intro i _; rfl
  | succ fuel ih =>
    intro i h
    have hlen_eq : spl - ec + (if i < nshort then 0 else 1) = block_len (spl - ec) nshort i := by
      unfold block_len
      split <;> omega
    have hoff1 : block_off (spl - ec) nshort (i + 1) ≤ data.length :=
      le_trans (block_off_mono _ _ (i + 1) (i + (fuel + 1)) (by omega)) h
    have htake : ((data.drop (block_off (spl - ec) nshort i)).take
        (block_len (spl - ec) nshort i)).length = block_len (spl - ec) nshort i := by
      rw [List.length_take, List.length_drop]
      have hsucc := block_off_succ (spl - ec) nshort i
      omega
    rw [pilesAux_succ, hlen_eq]
    rw [range_map_shift (fun m => pileSpec div data (spl - ec) nshort m) fuel i]
    refine congrArg₂ _ ?_ ?_
    · unfold pileSpec block_data
      split
      · rfl
      · rw [List.append_nil]
    · rw [htake, ← block_off_succ]
      have harg : i + 1 + fuel = i + (fuel + 1) := by omega
      exact ih (i + 1) (by rw [harg]; exact h)

theorem interleave_inner_length_ne (spl ec nshort i : Nat) (hne : i ≠ spl - ec) :
    ∀ piles j, (interleave_inner spl ec nshort i j piles).length = piles.length := by
  intro piles
  induction piles with
  | nil => intro j; rfl
  | cons p rest ih =>
    intro j
    unfold interleave_inner
    rw [if_pos (Or.inl hne), List.length_append, ih (j + 1)]
    simp only [List.length_singleton, List.length_cons, List.length_nil]
    omega

theorem interleave_inner_length_eq (spl ec nshort : Nat) :
    ∀ piles j, (interleave_inner spl ec nshort (spl - ec) j piles).length
      = piles.length - (nshort - j) := by
  intro piles
  induction piles with
  | nil =>
    intro j
    simp [interleave_inner]
  | cons p rest ih =>
    intro j
    unfold interleave_inner
    by_cases hj : nshort ≤ j
    · rw [if_pos (Or.inr hj), List.length_append, ih (j + 1)]
      simp only [List.length_singleton, List.length_cons, List.length_nil]
      omega
    · rw [if_neg (fun hor => hor.elim (fun h1 => h1 rfl) hj), List.nil_append, ih (j + 1)]
      simp only [List.length_cons]
      omega

theorem sum_range_map_ite (B Z s : Nat) (hZ : Z ≤ B) : ∀ L,
    ((List.range L).map (fun i => if i = s then B - Z else B)).sum
      = L * B - (if s < L then Z else 0) := by
  intro L
  induction L with
  | zero => simp
  | succ L ih =>
    rw [List.range_succ, List.map_append, List.sum_append, ih]
    simp only [List.map_cons, List.map_nil, List.sum_cons, List.sum_nil]
    have hmul : (L + 1) * B = L * B + B := Nat.succ_mul L B
    by_cases h1 : L = s
    · rw [if_pos h1]
      have hns : ¬ s < L := by omega
      rw [if_neg hns, if_pos (by omega : s < L + 1)]
      omega
    · rw [if_neg h1]
      by_cases h2 : s < L
      · rw [if_pos h2, if_pos (by omega : s < L + 1)]
        have hL : 1 ≤ L := by omega
        have hB' : 1 * B ≤ L * B := Nat.mul_le_mul_right B hL
        omega
      · rw [if_neg h2, if_neg (by omega : ¬ s < L + 1)]
        omega

theorem capacity_tables_ok (version : Nat) (e : Ecl)
    (h1 : 1 ≤ version) (h2 : version ≤ 40) :
    1 ≤ get_num_ec_piles version e ∧ 1 ≤ get_ecp_per_pile version e ∧
      get_ecp_per_pile version e * get_num_ec_piles version e
        ≤ get_num_data_bytes version / 8 := by
  cases e <;> interval_cases version <;> exact ⟨by decide, by decide, by decide⟩

theorem split_params (version : Nat) (e : Ecl) (h1 : 1 ≤ version) (h2 : version ≤ 40) :
    get_num_data_bytes version / 8 / get_num_ec_piles version e - get_ecp_per_pile version e
      = short_block_data_len version e ∧
    get_num_data_bytes version / 8 % get_num_ec_piles version e
      = get_capacity version e % get_num_ec_piles version e ∧
    get_ecp_per_pile version e
      ≤ get_num_data_bytes version / 8 / get_num_ec_piles version e := by
  obtain ⟨hB, hE, hET⟩ := capacity_tables_ok version e h1 h2
  have hcap : get_capacity version e =
      get_num_data_bytes version / 8
        - get_ecp_per_pile version e * get_num_ec_piles version e := rfl
  have hTD : get_num_data_bytes version / 8 =
      get_capacity version e + get_ecp_per_pile version e * get_num_ec_piles version e := by
    omega
  have hdiv : get_num_data_bytes version / 8 / get_num_ec_piles version e =
      get_capacity version e / get_num_ec_piles version e + get_ecp_per_pile version e := by
    rw [hTD]
    exact Nat.add_mul_div_right _ _ hB
  have hmod : get_num_data_bytes version / 8 % get_num_ec_piles version e =
      get_capacity version e % get_num_ec_piles version e := by
    rw [hTD]
    exact Nat.add_mul_mod_self_right _ _ _
  refine ⟨?_, hmod, ?_⟩
  · unfold short_block_data_len
    rw [hdiv]
    exact Nat.add_sub_cancel _ _
  · rw [hdiv]
    exact Nat.le_add_left _ _

theorem block_off_total (version : Nat) (e : Ecl) (h1 : 1 ≤ version) (h2 : version ≤ 40) :
    block_off (short_block_data_len version e) (num_short_blocks version e)
      (get_num_ec_piles version e) = get_capacity version e := by
  obtain ⟨hB, -, -⟩ := capacity_tables_ok version e h1 h2
  rw [block_off_eq]
  have hdam := Nat.div_add_mod (get_capacity version e) (get_num_ec_piles version e)
  have hmlt : get_capacity version e % get_num_ec_piles version e < get_num_ec_piles version e :=
    Nat.mod_lt _ hB
  have hZdef : num_short_blocks version e =
      get_num_ec_piles version e
        - get_capacity version e % get_num_ec_piles version e := rfl
  have hSdef : short_block_data_len version e =
      get_capacity version e / get_num_ec_piles version e := rfl
  rw [hZdef, hSdef]
  have hcm : get_num_ec_piles version e * (get_capacity version e / get_num_ec_piles version e)
      = (get_capacity version e / get_num_ec_piles version e) * get_num_ec_piles version e :=
    Nat.mul_comm _ _
  omega

theorem block_data_length (version : Nat) (e : Ecl) (data : List Nat)
    (h1 : 1 ≤ version) (h2 : version ≤ 40) (hd : get_capacity version e ≤ data.length)
    (i : Nat) (hi : i < get_num_ec_piles version e) :
    (block_data data (short_block_data_len version e) (num_short_blocks version e) i).length
      = block_len (short_block_data_len version e) (num_short_blocks version e) i := by
  unfold block_data
  rw [List.length_take, List.length_drop]
  have hto := block_off_total version e h1 h2
  have hmono := block_off_mono (short_block_data_len version e) (num_short_blocks version e)
    (i + 1) (get_num_ec_piles version e) (by omega)
  have hsucc := block_off_succ (short_block_data_len version e) (num_short_blocks version e) i
  omega

theorem interleave_length_general (piles : List (List Nat)) (spl E Z B : Nat)
    (hplen : piles.length = B)
    (hL0 : (piles.headD []).length = spl + 1)
    (hZB : Z ≤ B) :
    (interleave_data piles spl E Z).length = (spl + 1) * B - Z := by
  unfold interleave_data
  rw [hL0, List.length_flatten, List.map_map]
  rw [List.map_congr_left (g := fun i => if i = spl - E then B - Z else B) ?hcong]
  case hcong =>
    intro i _
    show (interleave_inner spl E Z i 0 piles).length = if i = spl - E then B - Z else B
    by_cases hcase : i = spl - E
    · rw [if_pos hcase, hcase, interleave_inner_length_eq spl E Z piles 0, hplen]
      omega
    · rw [if_neg hcase, interleave_inner_length_ne spl E Z i hcase piles 0, hplen]
  rw [sum_range_map_ite B Z (spl - E) hZB (spl + 1)]
  rw [if_pos (by omega : spl - E < spl + 1)]

theorem prepare_piles_eq (version : Nat) (e : Ecl) (data : List Nat)
    (h1 : 1 ≤ version) (h2 : version ≤ 40)
    (hd : get_capacity version e ≤ data.length) :
    prepare_piles data version e =
      (List.range (get_num_ec_piles version e)).map
        (fun i => pileSpec (create_rs_divisor (get_ecp_per_pile version e)) data
          (short_block_data_len version e) (num_short_blocks version e) i) := by
  obtain ⟨hB, hE, hET⟩ := capacity_tables_ok version e h1 h2
  obtain ⟨hS, hmod, hEle⟩ := split_params version e h1 h2
  have hZ : get_num_ec_piles version e
      - get_num_data_bytes version / 8 % get_num_ec_piles version e
      = num_short_blocks version e := by
    unfold num_short_blocks
    rw [hmod]
  have h0 : block_off (short_block_data_len version e) (num_short_blocks version e) 0 = 0 := by
    simp [block_off]
  have hdata : block_off (short_block_data_len version e) (num_short_blocks version e)
      (0 + get_num_ec_piles version e) ≤ data.length := by
    rw [Nat.zero_add, block_off_total version e h1 h2]
    exact hd
  have hstruct := pilesAux_struct (create_rs_divisor (get_ecp_per_pile version e)) data
    (get_num_data_bytes version / 8 / get_num_ec_piles version e)
    (get_ecp_per_pile version e) (num_short_blocks version e) hEle
    (get_num_ec_piles version e) 0 (by rw [hS]; exact hdata)
  rw [hS, h0] at hstruct
  show pilesAux (create_rs_divisor (get_ecp_per_pile version e)) data
      (get_num_data_bytes version / 8 / get_num_ec_piles version e)
      (get_ecp_per_pile version e)
      (get_num_ec_piles version e
        - get_num_data_bytes version / 8 % get_num_ec_piles version e)
      (get_num_ec_piles version e) 0 0 = _
  rw [hZ, hstruct]
  apply List.map_congr_left
  intro m _
  rw [Nat.zero_add]

theorem final_count (r B spl T : Nat) (hdam : B * spl + r = T) (hr : r < B) :
    (spl + 1) * B - (B - r) = T := by
  have hmul : (spl + 1) * B = spl * B + B := Nat.succ_mul spl B
  have hcomm : spl * B = B * spl := Nat.mul_comm spl B
  omega

/-- Claim C4: for every admissible `(version, ecl)` and enough input data, the
block splitter of `prepare_payload` forms exactly `B = num_blocks` stored
piles; pile `i` is its data bytes (`S = D div B` of them for the short blocks
`i < Z = B - D mod B`, `S + 1` for the rest, where `D` is the data-byte total
`get_capacity`), then the dummy zero byte on short piles, then exactly
`E = ec_per_block` Reed-Solomon remainder bytes of those data bytes — even
though the code derives its pile bounds from the total codeword count
`get_num_data_bytes / 8` rather than from `D`. -/
theorem prepare_piles_block_structure (version : Nat) (e : Ecl) (data : List Nat)
    (h1 : 1 ≤ version) (h2 : version ≤ 40)
    (hd : get_capacity version e ≤ data.length) :
    prepare_piles data version e =
      (List.range (get_num_ec_piles version e)).map
        (fun i => pileSpec (create_rs_divisor (get_ecp_per_pile version e)) data
          (short_block_data_len version e) (num_short_blocks version e) i) ∧
    (prepare_piles data version e).length = get_num_ec_piles version e ∧
    (∀ i, i < get_num_ec_piles version e →
      (block_data data (short_block_data_len version e) (num_short_blocks version e) i).length
        = if i < num_short_blocks version e then short_block_data_len version e
          else short_block_data_len version e + 1) ∧
    ∀ i, (remainder (create_rs_divisor (get_ecp_per_pile version e))
        (block_data data (short_block_data_len version e) (num_short_blocks version e) i)).length
      = get_ecp_per_pile version e := by
  obtain ⟨hB, hE, hET⟩ := capacity_tables_ok version e h1 h2
  have hmap := prepare_piles_eq version e data h1 h2 hd
  refine ⟨hmap, ?_, ?_, ?_⟩
  · rw [hmap, List.length_map, List.length_range]
  · intro i hi
    rw [block_data_length version e data h1 h2 hd i hi]
    rfl
  · intro i
    rw [remainder_length]
    exact create_rs_divisor_length _ hE

theorem prepare_piles_block_structure_witness :
    (1 : Nat) ≤ 5 ∧ (5 : Nat) ≤ 40 ∧
    get_capacity 5 Ecl.H ≤ (List.replicate 46 (0 : Nat)).length ∧
    (prepare_piles (List.replicate 46 (0 : Nat)) 5 Ecl.H =
      (List.range (get_num_ec_piles 5 Ecl.H)).map
        (fun i => pileSpec (create_rs_divisor (get_ecp_per_pile 5 Ecl.H))
          (List.replicate 46 (0 : Nat))
          (short_block_data_len 5 Ecl.H) (num_short_blocks 5 Ecl.H) i) ∧
    (prepare_piles (List.replicate 46 (0 : Nat)) 5 Ecl.H).length = get_num_ec_piles 5 Ecl.H ∧
    (∀ i, i < get_num_ec_piles 5 Ecl.H →
      (block_data (List.replicate 46 (0 : Nat)) (short_block_data_len 5 Ecl.H)
          (num_short_blocks 5 Ecl.H) i).length
        = if i < num_short_blocks 5 Ecl.H then short_block_data_len 5 Ecl.H
          else short_block_data_len 5 Ecl.H + 1) ∧
    ∀ i, (remainder (create_rs_divisor (get_ecp_per_pile 5 Ecl.H))
        (block_data (List.replicate 46 (0 : Nat)) (short_block_data_len 5 Ecl.H)
          (num_short_blocks 5 Ecl.H) i)).length
      = get_ecp_per_pile 5 Ecl.H) :=
  ⟨by decide, by decide, by decide,
    prepare_piles_block_structure 5 Ecl.H (List.replicate 46 0)
      (by decide) (by decide) (by decide)⟩

/-- Claim C1: for every version in 1..40 and every ECL, given at least
`total_data_bytes` input bytes, the interleaved byte stream produced by
`prepare_payload` has length exactly `get_num_data_bytes(version) / 8` (the
raw capacity in codewords). -/
theorem prepare_payload_length (version : Nat) (e : Ecl) (data : List Nat)
    (h1 : 1 ≤ version) (h2 : version ≤ 40)
    (hd : get_capacity version e ≤ data.length) :
    (prepare_payload data version e).length = get_num_data_bytes version / 8 := by
  obtain ⟨hB, hE, hET⟩ := capacity_tables_ok version e h1 h2
  obtain ⟨hS, hmod, hEle⟩ := split_params version e h1 h2
  have hmap := prepare_piles_eq version e data h1 h2 hd
  have hadd : short_block_data_len version e + get_ecp_per_pile version e
      = get_num_data_bytes version / 8 / get_num_ec_piles version e := by
    rw [← hS]
    exact Nat.sub_add_cancel hEle
  have hplen : (prepare_piles data version e).length = get_num_ec_piles version e := by
    rw [hmap, List.length_map, List.length_range]
  have hhead : (prepare_piles data version e).headD [] =
      pileSpec (create_rs_divisor (get_ecp_per_pile version e)) data
        (short_block_data_len version e) (num_short_blocks version e) 0 := by
    rw [hmap,
      show get_num_ec_piles version e = (get_num_ec_piles version e - 1) + 1 by omega,
      List.range_succ_eq_map]
    rfl
  have hpile0 : (pileSpec (create_rs_divisor (get_ecp_per_pile version e)) data
      (short_block_data_len version e) (num_short_blocks version e) 0).length
      = get_num_data_bytes version / 8 / get_num_ec_piles version e + 1 := by
    unfold pileSpec
    rw [List.length_append, List.length_append, remainder_length,
      create_rs_divisor_length _ hE,
      block_data_length version e data h1 h2 hd 0 (by omega), ← hadd]
    unfold block_len
    split <;> simp only [List.length_singleton, List.length_nil] <;> omega
  have hilen := interleave_length_general (prepare_piles data version e)
    (get_num_data_bytes version / 8 / get_num_ec_piles version e)
    (get_ecp_per_pile version e)
    (get_num_ec_piles version e - get_num_data_bytes version / 8 % get_num_ec_piles version e)
    (get_num_ec_piles version e) hplen (by rw [hhead, hpile0]) (by omega)
  show (interleave_data (prepare_piles data version e)
      (get_num_data_bytes version / 8 / get_num_ec_piles version e)
      (get_ecp_per_pile version e)
      (get_num_ec_piles version e
        - get_num_data_bytes version / 8 % get_num_ec_piles version e)).length
      = get_num_data_bytes version / 8
  rw [hilen]
  exact final_count (get_num_data_bytes version / 8 % get_num_ec_piles version e)
    (get_num_ec_piles version e)
    (get_num_data_bytes version / 8 / get_num_ec_piles version e)
    (get_num_data_bytes version / 8)
    (Nat.div_add_mod _ _) (Nat.mod_lt _ hB)

theorem prepare_payload_length_witness :
    (1 : Nat) ≤ 1 ∧ (1 : Nat) ≤ 40 ∧
    get_capacity 1 Ecl.M ≤ (List.replicate 16 (0 : Nat)).length ∧
    (prepare_payload (List.replicate 16 (0 : Nat)) 1 Ecl.M).length
      = get_num_data_bytes 1 / 8 :=
  ⟨by decide, by decide, by decide,
    prepare_payload_length 1 Ecl.M (List.replicate 16 0) (by decide) (by decide) (by decide)⟩
